import Mathlib

/-!
Verification of the heredity inference engine (`heredity.py`).

The program performs exact enumeration-based Bayesian inference over a
family tree: it enumerates every trait hypothesis (subset of people assumed
to show the trait) and every gene hypothesis (disjoint `one_gene` /
`two_genes` subsets), computes the joint probability of each complete
hypothesis, accumulates per-person bucket totals and normalizes them.

Embedding conventions:
- Python float constants are modelled as exact rationals (`ℚ`); every claim
  under verification is an exact algebraic statement about these constants.
- A Python `dict` population is modelled as a `List Person` (with a
  `Nodup` hypothesis on names where key uniqueness matters) and the sets
  `one_gene`, `two_genes`, `have_trait` as `Finset String`.
- The imperative accumulation loop of `main` is modelled as a `Finset.sum`
  over the same index sets the loop ranges over; each enumerated hypothesis
  contributes exactly one summand, mirroring the single `update` call per
  hypothesis.
- `normalize` performs Python division which raises `ZeroDivisionError` on
  a zero total; it is embedded as an `Except`-valued function whose only
  error is that generic arithmetic error.
-/

namespace Heredity

/-- One row of the loaded population: `load_data` produces, per person,
a name, optional mother/father names and an optional observed trait. -/
structure Person where
  name : String
  mother : Option String
  father : Option String
  trait : Option Bool
  deriving DecidableEq, Repr

/-- `PROBS["gene"]`: unconditional prior over gene count.  The Python dict
has exactly the keys 2, 1, 0; the catch-all branch is never reached by the
program (gene counts are always 0, 1 or 2). -/
def PROBS_gene : ℕ → ℚ
  | 2 => 1/100
  | 1 => 3/100
  | 0 => 96/100
  | _ => 0

/-- `PROBS["trait"]`: probability of the trait status given gene count.
Keys are exactly 2, 1, 0 crossed with `True`/`False`. -/
def PROBS_trait : ℕ → Bool → ℚ
  | 2, true => 65/100
  | 2, false => 35/100
  | 1, true => 56/100
  | 1, false => 44/100
  | 0, true => 1/100
  | 0, false => 99/100
  | _, _ => 0

/-- `PROBS["mutation"]`. -/
def PROBS_mutation : ℚ := 1/100

/-- `get_trait`: `True if person in have_trait else False`. -/
def getTrait (person : String) (have_trait : Finset String) : Bool :=
  decide (person ∈ have_trait)

/-- Python membership `x in s` where `x` is a string or `None` and `s` is a
set of strings: `None` is a member of no such set. -/
def memOpt (x : Option String) (s : Finset String) : Bool :=
  match x with
  | none => false
  | some n => decide (n ∈ s)

/-- `get_nbr_genes`: 2 if the person is in `two_genes`, else 1 if in
`one_gene`, else 0.  In Python the same function is applied both to person
names and to (possibly `None`) parent fields, hence the `Option` argument. -/
def getNbrGenes (person : Option String) (one_gene two_genes : Finset String) : ℕ :=
  if memOpt person two_genes then 2
  else if memOpt person one_gene then 1
  else 0

/-- `get_parent_prob`: probability that a parent transmits the gene,
`0.01` for 0 copies, `0.5` for 1 copy, `0.99` otherwise.  Note the source
hard-codes these literals; it does not consult `PROBS["mutation"]` and it
performs no lookup of the parent in the population. -/
def getParentProb (parent : Option String) (one_gene two_genes : Finset String) : ℚ :=
  if getNbrGenes parent one_gene two_genes = 0 then 1/100
  else if getNbrGenes parent one_gene two_genes = 1 then 1/2
  else 99/100

/-- The three child gene-count formulas from the parented branch of
`joint_probability` (lines 152-157): `(1-pm)*(1-pf)` for 0 copies,
`(1-pm)*pf + pm*(1-pf)` for 1 copy, `pf*pm` otherwise. -/
def childGeneProb (prob_mother prob_father : ℚ) (this_genes : ℕ) : ℚ :=
  if this_genes = 0 then (1 - prob_mother) * (1 - prob_father)
  else if this_genes = 1 then (1 - prob_mother) * prob_father + prob_mother * (1 - prob_father)
  else prob_father * prob_mother

/-- The loop body of `joint_probability` for one person: the gene factor
(prior if `mother is None`, else the child formula over the two parents'
transmission probabilities) times the trait factor. -/
def personFactor (p : Person) (one_gene two_genes have_trait : Finset String) : ℚ :=
  (if p.mother = none then
    PROBS_gene (getNbrGenes (some p.name) one_gene two_genes)
  else
    childGeneProb (getParentProb p.mother one_gene two_genes)
      (getParentProb p.father one_gene two_genes)
      (getNbrGenes (some p.name) one_gene two_genes)) *
  PROBS_trait (getNbrGenes (some p.name) one_gene two_genes) (getTrait p.name have_trait)

/-- `joint_probability`: the product of the per-person factors over the
whole population. -/
def jointProbability (people : List Person) (one_gene two_genes have_trait : Finset String) : ℚ :=
  (people.map (fun p => personFactor p one_gene two_genes have_trait)).prod

/-- `names = set(people)`: the set of names of the population. -/
def namesOf (people : List Person) : Finset String :=
  (people.map Person.name).toFinset

/-- The `fails_evidence` test of `main`: some person has a known trait that
differs from their membership in the candidate `have_trait` set. -/
def failsEvidence (people : List Person) (have_trait : Finset String) : Bool :=
  people.any fun p =>
    match p.trait with
    | none => false
    | some b => b != decide (p.name ∈ have_trait)

/-- The nested gene-hypothesis enumeration of `main`: all pairs
`(one_gene, two_genes)` with `one_gene ⊆ names` and
`two_genes ⊆ names \ one_gene`. -/
def enumGene (names : Finset String) : Finset (Finset String × Finset String) :=
  names.powerset.biUnion fun one_gene =>
    ((names \ one_gene).powerset).image fun two_genes => (one_gene, two_genes)

/-- Total mass one candidate trait set contributes to a person's gene
bucket `g`: zero if the trait set fails the evidence test (the `continue`),
otherwise the sum over all enumerated gene hypotheses of the joint
probabilities in which the person's gene count is `g`. -/
def traitContribGene (people : List Person) (have_trait : Finset String)
    (person : String) (g : ℕ) : ℚ :=
  if failsEvidence people have_trait then 0
  else ∑ pr ∈ enumGene (namesOf people),
    if getNbrGenes (some person) pr.1 pr.2 = g
    then jointProbability people pr.1 pr.2 have_trait else 0

/-- Total mass one candidate trait set contributes to a person's trait
bucket `t`. -/
def traitContribTrait (people : List Person) (have_trait : Finset String)
    (person : String) (t : Bool) : ℚ :=
  if failsEvidence people have_trait then 0
  else ∑ pr ∈ enumGene (namesOf people),
    if getTrait person have_trait = t
    then jointProbability people pr.1 pr.2 have_trait else 0

/-- Final accumulated gene bucket `g` of a person, after the loops of
`main` have run all `update` calls: one summand per enumerated hypothesis. -/
def accumGene (people : List Person) (person : String) (g : ℕ) : ℚ :=
  ∑ ht ∈ (namesOf people).powerset, traitContribGene people ht person g

/-- Final accumulated trait bucket `t` of a person. -/
def accumTrait (people : List Person) (person : String) (t : Bool) : ℚ :=
  ∑ ht ∈ (namesOf people).powerset, traitContribTrait people ht person t

/-- The two belief tables `probabilities[person]` of one person: gene
buckets (keys 0, 1, 2) and trait buckets. -/
structure Belief where
  gene : ℕ → ℚ
  trait : Bool → ℚ

/-- The person's belief tables as accumulated by `main`'s loops. -/
def accumBelief (people : List Person) (person : String) : Belief :=
  ⟨accumGene people person, accumTrait people person⟩

/-- The only failure mode of `normalize`: Python's generic
`ZeroDivisionError`, raised by `/=` when a table total is zero. -/
inductive NormalizeError
  | zeroDivision
  deriving DecidableEq, Repr

/-- `normalize` on one person's tables: divide every gene bucket by the
gene total and every trait bucket by the trait total, raising the generic
division error if a total is zero. -/
def normalizeBelief (b : Belief) : Except NormalizeError Belief :=
  if b.gene 2 + b.gene 1 + b.gene 0 = 0 then Except.error NormalizeError.zeroDivision
  else if b.trait true + b.trait false = 0 then Except.error NormalizeError.zeroDivision
  else Except.ok
    ⟨fun g => b.gene g / (b.gene 2 + b.gene 1 + b.gene 0),
     fun t => b.trait t / (b.trait true + b.trait false)⟩

/-- The trait-field conversion of `load_data`:
`True if row == "1" else False if row == "0" else None`. -/
def parseTrait (s : String) : Option Bool :=
  if s = "1" then some true
  else if s = "0" then some false
  else none

/-- Python `row or None` on a string field: the empty string is falsy. -/
def blankToNone (s : String) : Option String :=
  if s = "" then none else some s

/-- One row of `load_data`: name kept, parents blank-to-`None`, trait
parsed by the trait-field conversion. -/
def loadRow (name mother father trait : String) : Person :=
  ⟨name, blankToNone mother, blankToNone father, parseTrait trait⟩

/-! ## Basic facts about the calculator's factors -/

/-- `get_nbr_genes` only ever returns 0, 1 or 2. -/
lemma getNbrGenes_lt_three (x : Option String) (one_gene two_genes : Finset String) :
    getNbrGenes x one_gene two_genes < 3 := by
  unfold getNbrGenes
  split_ifs <;> norm_num

/-- Every transmission probability is strictly between 0 and 1. -/
lemma getParentProb_mem (parent : Option String) (one_gene two_genes : Finset String) :
    0 < getParentProb parent one_gene two_genes ∧ getParentProb parent one_gene two_genes < 1 := by
  unfold getParentProb
  split_ifs <;> norm_num

/-- The prior table is positive on its real keys. -/
lemma PROBS_gene_pos {g : ℕ} (hg : g < 3) : 0 < PROBS_gene g := by
  interval_cases g <;> norm_num [PROBS_gene]

/-- The trait table is positive on its real keys. -/
lemma PROBS_trait_pos {g : ℕ} (hg : g < 3) (t : Bool) : 0 < PROBS_trait g t := by
  interval_cases g <;> cases t <;> norm_num [PROBS_trait]

/-- The child formulas are positive for transmission probabilities strictly
inside the unit interval. -/
lemma childGeneProb_pos {pm pf : ℚ} (h1 : 0 < pm) (h2 : pm < 1) (h3 : 0 < pf)
    (h4 : pf < 1) (g : ℕ) : 0 < childGeneProb pm pf g := by
  unfold childGeneProb
  split_ifs
  · nlinarith
  · nlinarith
  · nlinarith

/-- Every per-person factor of `joint_probability` is strictly positive. -/
lemma personFactor_pos (p : Person) (one_gene two_genes have_trait : Finset String) :
    0 < personFactor p one_gene two_genes have_trait := by
  unfold personFactor
  have hg := getNbrGenes_lt_three (some p.name) one_gene two_genes
  refine mul_pos ?_ (PROBS_trait_pos hg _)
  split_ifs
  · exact PROBS_gene_pos hg
  · exact childGeneProb_pos (getParentProb_mem p.mother one_gene two_genes).1
      (getParentProb_mem p.mother one_gene two_genes).2
      (getParentProb_mem p.father one_gene two_genes).1
      (getParentProb_mem p.father one_gene two_genes).2 _

/-- `joint_probability` always returns a strictly positive rational,
whatever the population and hypothesis sets. -/
lemma jointProbability_pos (people : List Person) (one_gene two_genes have_trait : Finset String) :
    0 < jointProbability people one_gene two_genes have_trait := by
  unfold jointProbability
  apply List.prod_pos
  intro a ha
  simp only [List.mem_map] at ha
  obtain ⟨p, hp, rfl⟩ := ha
  exact personFactor_pos p one_gene two_genes have_trait

/-! ## Spec-side model of the joint-probability factorization (for C1)

These definitions follow the words of the specification, to be compared
with the source-translated `jointProbability`. -/

/-- Spec: the hypothesized gene count of a name under a gene hypothesis —
2 if in `two_genes`, 1 if in `one_gene`, otherwise 0. -/
def specGeneCount (name : String) (one_gene two_genes : Finset String) : ℕ :=
  if name ∈ two_genes then 2 else if name ∈ one_gene then 1 else 0

/-- Spec: the unconditional prior, `P(2)=0.01`, `P(1)=0.03`, `P(0)=0.96`. -/
def specPrior : ℕ → ℚ
  | 2 => 1/100
  | 1 => 3/100
  | 0 => 96/100
  | _ => 0

/-- Spec: per-parent transmission probability — the mutation rate `m` for a
0-copy parent, `1/2` for a 1-copy parent, `1 - m` for a 2-copy parent. -/
def specTransmission (parent_genes : ℕ) : ℚ :=
  if parent_genes = 0 then PROBS_mutation
  else if parent_genes = 1 then 1/2
  else 1 - PROBS_mutation

/-- Spec: the three child formulas over the parents' transmission
probabilities. -/
def specChildDist (p_mother p_father : ℚ) : ℕ → ℚ
  | 0 => (1 - p_mother) * (1 - p_father)
  | 1 => (1 - p_mother) * p_father + p_mother * (1 - p_father)
  | 2 => p_mother * p_father
  | _ => 0

/-- Spec: an individual's gene factor — the unconditional prior keyed by
their hypothesized gene count when parentless, otherwise the child formula
over the two parents' transmission probabilities. -/
def specGeneFactor (p : Person) (one_gene two_genes : Finset String) : ℚ :=
  match p.mother, p.father with
  | some m, some f =>
      specChildDist (specTransmission (specGeneCount m one_gene two_genes))
        (specTransmission (specGeneCount f one_gene two_genes))
        (specGeneCount p.name one_gene two_genes)
  | _, _ => specPrior (specGeneCount p.name one_gene two_genes)

/-- Spec: an individual's trait factor — the trait-expression table entry
keyed by their own hypothesized gene count and hypothesized trait. -/
def specTraitFactor (p : Person) (one_gene two_genes have_trait : Finset String) : ℚ :=
  PROBS_trait (specGeneCount p.name one_gene two_genes) (decide (p.name ∈ have_trait))

/-- `get_nbr_genes` applied to a person name agrees with the spec-side
hypothesized gene count. -/
lemma getNbrGenes_some (n : String) (one_gene two_genes : Finset String) :
    getNbrGenes (some n) one_gene two_genes = specGeneCount n one_gene two_genes := by
  simp [getNbrGenes, memOpt, specGeneCount]

/-- The hard-coded transmission literals `0.01`, `0.5`, `0.99` of
`get_parent_prob` are exactly `m`, `1/2`, `1 - m` of the spec, keyed by
the parent's hypothesized gene count. -/
lemma getParentProb_eq_specTransmission (n : String) (one_gene two_genes : Finset String) :
    getParentProb (some n) one_gene two_genes =
      specTransmission (specGeneCount n one_gene two_genes) := by
  rw [getParentProb, getNbrGenes_some, specTransmission, PROBS_mutation]
  split_ifs <;> norm_num

/-- On the real gene counts 0, 1, 2 the source's child formulas agree with
the spec's child distribution. -/
lemma childGeneProb_eq_specChildDist (pm pf : ℚ) {g : ℕ} (hg : g < 3) :
    childGeneProb pm pf g = specChildDist pm pf g := by
  interval_cases g <;> simp [childGeneProb, specChildDist, mul_comm]

/-- The source's prior table equals the spec's prior table. -/
lemma PROBS_gene_eq_specPrior : ∀ g, PROBS_gene g = specPrior g
  | 0 => rfl
  | 1 => rfl
  | 2 => rfl
  | _ + 3 => rfl

/-- For a person whose parents are both present or both absent, the
source's loop body equals the spec-side gene factor times trait factor. -/
lemma personFactor_eq_spec (p : Person) (hp : p.mother = none ↔ p.father = none)
    (one_gene two_genes have_trait : Finset String) :
    personFactor p one_gene two_genes have_trait =
      specGeneFactor p one_gene two_genes *
        specTraitFactor p one_gene two_genes have_trait := by
  have hlt : specGeneCount p.name one_gene two_genes < 3 := by
    rw [← getNbrGenes_some]
    exact getNbrGenes_lt_three (some p.name) one_gene two_genes
  unfold personFactor specGeneFactor specTraitFactor getTrait
  rw [getNbrGenes_some]
  rcases hm : p.mother with _ | m <;> rcases hf : p.father with _ | f
  · simp [hm, hf, PROBS_gene_eq_specPrior]
  · exact absurd (hp.mp hm) (by simp [hf])
  · exact absurd (hp.mpr hf) (by simp [hm])
  · rw [if_neg (Option.some_ne_none m),
      getParentProb_eq_specTransmission, getParentProb_eq_specTransmission,
      childGeneProb_eq_specChildDist _ _ hlt]

/-- `fails_evidence` is false exactly when every person with a known trait
agrees with their membership in the candidate trait set. -/
lemma failsEvidence_eq_false_iff (people : List Person) (have_trait : Finset String) :
    failsEvidence people have_trait = false ↔
      ∀ p ∈ people, ∀ b, p.trait = some b → ((p.name ∈ have_trait) ↔ b = true) := by
  unfold failsEvidence
  rw [List.any_eq_false]
  constructor
  · intro h p hp b hb
    have h2 := h p hp
    rw [hb] at h2
    simp only [Bool.not_eq_true, bne_eq_false_iff_eq] at h2
    subst h2
    simp
  · intro h p hp
    cases htr : p.trait with
    | none => simp
    | some b =>
      have hb := h p hp b htr
      simp only [Bool.not_eq_true, bne_eq_false_iff_eq]
      cases b
      · have : ¬ (p.name ∈ have_trait) := fun hmem => by simpa using hb.mp hmem
        simp [this]
      · simp [hb.mpr rfl]

/-! ## Claim theorems: the calculator's pointwise properties -/

/-- C1: for every population whose individuals have both parents recorded
or neither, and every complete hypothesis, `joint_probability` is the
product over all individuals of the spec's gene factor (unconditional
prior `P(2)=0.01, P(1)=0.03, P(0)=0.96` when parentless; otherwise the
three child formulas over per-parent transmission probabilities `m`,
`1/2`, `1-m` with `m = 0.01`) times the spec's trait factor (the
trait-expression table entry keyed by own hypothesized gene count and
hypothesized trait). -/
theorem C1_jointProbability_factorizes (people : List Person)
    (hW : ∀ p ∈ people, (p.mother = none ↔ p.father = none))
    (one_gene two_genes have_trait : Finset String) :
    jointProbability people one_gene two_genes have_trait =
      (people.map fun p => specGeneFactor p one_gene two_genes *
        specTraitFactor p one_gene two_genes have_trait).prod := by
  unfold jointProbability
  congr 1
  exact List.map_congr_left fun p hp =>
    personFactor_eq_spec p (hW p hp) one_gene two_genes have_trait

/-- Witness for C1 on a two-person population (one parentless, one with
two resolving parents) and the empty hypothesis sets. -/
theorem C1_witness :
    (∀ p ∈ [(⟨"a", none, none, none⟩ : Person), ⟨"c", some "a", some "a", some true⟩],
      (p.mother = none ↔ p.father = none)) ∧
    jointProbability [⟨"a", none, none, none⟩, ⟨"c", some "a", some "a", some true⟩] ∅ ∅ ∅ =
      ([(⟨"a", none, none, none⟩ : Person), ⟨"c", some "a", some "a", some true⟩].map
        fun p => specGeneFactor p ∅ ∅ * specTraitFactor p ∅ ∅ ∅).prod :=
  ⟨by decide,
   C1_jointProbability_factorizes _ (by decide) ∅ ∅ ∅⟩

/-- C3: the inner gene-hypothesis loops of `main` run for a candidate
trait subset exactly when every individual with a known observed trait has
membership in the subset equal to the observation (unknown traits impose
no constraint), and an inadmissible subset contributes nothing: its entire
inner loop is skipped. -/
theorem C3_admissibility_filter (people : List Person) (have_trait : Finset String) :
    (failsEvidence people have_trait = false ↔
      ∀ p ∈ people, ∀ b, p.trait = some b → ((p.name ∈ have_trait) ↔ b = true)) ∧
    (failsEvidence people have_trait = true →
      ∀ person g t, traitContribGene people have_trait person g = 0 ∧
        traitContribTrait people have_trait person t = 0) := by
  refine ⟨failsEvidence_eq_false_iff people have_trait, fun h person g t => ?_⟩
  constructor <;> simp [traitContribGene, traitContribTrait, h]

/-- Witness for C3 on a one-person population with observed trait `true`
and the inadmissible empty trait subset. -/
theorem C3_witness :
    failsEvidence [(⟨"a", none, none, some true⟩ : Person)] ∅ = true ∧
    traitContribGene [(⟨"a", none, none, some true⟩ : Person)] ∅ "a" 0 = 0 ∧
    traitContribTrait [(⟨"a", none, none, some true⟩ : Person)] ∅ "a" true = 0 :=
  ⟨by decide,
   ((C3_admissibility_filter [(⟨"a", none, none, some true⟩ : Person)] ∅).2
     (by decide) "a" 0 true).1,
   ((C3_admissibility_filter [(⟨"a", none, none, some true⟩ : Person)] ∅).2
     (by decide) "a" 0 true).2⟩

/-- C4: for all transmission probabilities `p_mother`, `p_father` in `[0,1]`,
the three child gene-count probabilities `(1-pm)(1-pf)`,
`(1-pm)·pf + pm·(1-pf)` and `pm·pf` computed by the calculator sum to
exactly 1. -/
theorem C4_child_gene_probs_sum_to_one (p_mother p_father : ℚ)
    (_hm0 : 0 ≤ p_mother) (_hm1 : p_mother ≤ 1) (_hf0 : 0 ≤ p_father) (_hf1 : p_father ≤ 1) :
    childGeneProb p_mother p_father 0 + childGeneProb p_mother p_father 1 +
      childGeneProb p_mother p_father 2 = 1 := by
  simp only [childGeneProb]
  norm_num
  ring

/-- Witness for C4 at `p_mother = 1/2`, `p_father = 99/100`. -/
theorem C4_witness :
    (0 ≤ (1/2 : ℚ) ∧ (1/2 : ℚ) ≤ 1 ∧ 0 ≤ (99/100 : ℚ) ∧ (99/100 : ℚ) ≤ 1) ∧
    childGeneProb (1/2) (99/100) 0 + childGeneProb (1/2) (99/100) 1 +
      childGeneProb (1/2) (99/100) 2 = 1 :=
  ⟨by norm_num,
   C4_child_gene_probs_sum_to_one (1/2) (99/100) (by norm_num) (by norm_num)
     (by norm_num) (by norm_num)⟩

/-- C7 counterexample: on a population whose only individual has a mother
reference `"a"` that resolves to no individual and no father at all (a
malformed single-parent record), `joint_probability` does not abort: it
silently returns the probability `0.970299`.  The embedding of
`joint_probability` is a total function because the source has no failure
path — both unresolved parents are treated as 0-copy parents with
transmission probability `0.01`, so the claimed fatal
"malformed relationship" abort does not exist. -/
theorem C7_counterexample_single_parent_silently_computes :
    jointProbability [⟨"c", some "a", none, none⟩] ∅ ∅ ∅ = 970299/1000000 := by
  simp only [jointProbability, personFactor, getNbrGenes, memOpt, getParentProb,
    childGeneProb, getTrait, List.map_cons, List.map_nil, List.prod_cons, List.prod_nil,
    Finset.not_mem_empty, Bool.false_eq_true, if_false, reduceCtorEq, if_true]
  norm_num [PROBS_trait]

/-- C7 amended: `joint_probability` never aborts on malformed parent
references; for every population — including dangling parent names and
single-parent records — and every hypothesis it returns a strictly
positive probability. -/
theorem C7_amended_jointProbability_never_aborts :
    ∀ (people : List Person) (one_gene two_genes have_trait : Finset String),
      0 < jointProbability people one_gene two_genes have_trait :=
  fun people one_gene two_genes have_trait =>
    jointProbability_pos people one_gene two_genes have_trait

/-- C8: on a beliefs table whose buckets are all zero (the situation the
claim describes: no admissible hypothesis ever accumulated mass), the
source's `normalize` raises Python's generic `ZeroDivisionError` — modelled
as the sole error `NormalizeError.zeroDivision` — and no distinct
"no consistent hypothesis" condition exists anywhere in the code. -/
theorem C8_normalize_zero_total_generic_error :
    normalizeBelief ⟨fun _ => 0, fun _ => 0⟩ = Except.error NormalizeError.zeroDivision := by
  simp [normalizeBelief]

/-- C9: `get_parent_prob` is total and performs no population lookup: a
`None` parent, and more generally any parent value outside both `one_gene`
and `two_genes` (including dangling names), is treated as a 0-copy parent
and yields transmission probability `0.01`. -/
theorem C9_getParentProb_total_default :
    (∀ one_gene two_genes : Finset String, getParentProb none one_gene two_genes = 1/100) ∧
    ∀ (parent : Option String) (one_gene two_genes : Finset String),
      memOpt parent one_gene = false → memOpt parent two_genes = false →
      getParentProb parent one_gene two_genes = 1/100 := by
  constructor
  · intro one_gene two_genes
    simp [getParentProb, getNbrGenes, memOpt]
  · intro parent one_gene two_genes h1 h2
    simp [getParentProb, getNbrGenes, h1, h2]

/-- Witness for C9 at the dangling parent name `"ghost"` and empty
hypothesis sets. -/
theorem C9_witness :
    memOpt (some "ghost") ∅ = false ∧
    getParentProb (some "ghost") ∅ ∅ = 1/100 :=
  ⟨by decide,
   C9_getParentProb_total_default.2 (some "ghost") ∅ ∅ (by decide) (by decide)⟩

/-- C10: `load_data` maps the trait field `"1"` to known-true, `"0"` to
known-false and every other string — including malformed markers such as
`"2"` or `"yes"` — silently to unknown (`None`). -/
theorem C10_load_data_trait_field :
    (∀ n m f, (loadRow n m f "1").trait = some true) ∧
    (∀ n m f, (loadRow n m f "0").trait = some false) ∧
    ∀ n m f s, s ≠ "1" → s ≠ "0" → (loadRow n m f s).trait = none := by
  refine ⟨fun n m f => by simp [loadRow, parseTrait],
          fun n m f => by simp [loadRow, parseTrait],
          fun n m f s h1 h0 => ?_⟩
  simp [loadRow, parseTrait, h1, h0]

/-- Witness for C10 at the malformed trait markers `"2"` and `"yes"`. -/
theorem C10_witness :
    ("2" ≠ "1") ∧ ("2" ≠ "0") ∧ (loadRow "a" "" "" "2").trait = none ∧
    (loadRow "b" "" "" "yes").trait = none :=
  ⟨by decide, by decide,
   C10_load_data_trait_field.2.2 "a" "" "" "2" (by decide) (by decide),
   C10_load_data_trait_field.2.2 "b" "" "" "yes" (by decide) (by decide)⟩

/-! ## The gene-hypothesis enumeration (C2) -/

/-- Membership in the nested enumeration: `one_gene` ranges over subsets
of the names and `two_genes` over subsets of the remaining names. -/
lemma mem_enumGene {names : Finset String} {pr : Finset String × Finset String} :
    pr ∈ enumGene names ↔ pr.1 ⊆ names ∧ pr.2 ⊆ names \ pr.1 := by
  unfold enumGene
  simp only [Finset.mem_biUnion, Finset.mem_powerset, Finset.mem_image]
  constructor
  · rintro ⟨one, h1, two, h2, rfl⟩
    exact ⟨h1, h2⟩
  · rintro ⟨h1, h2⟩
    exact ⟨pr.1, h1, pr.2, h2, rfl⟩

/-- The pair of empty sets is always enumerated. -/
lemma empty_mem_enumGene (names : Finset String) : (∅, ∅) ∈ enumGene names := by
  rw [mem_enumGene]
  exact ⟨Finset.empty_subset _, Finset.empty_subset _⟩

/-- The nested enumeration produces exactly `3 ^ n` pairs. -/
lemma enumGene_card (names : Finset String) : (enumGene names).card = 3 ^ names.card := by
  unfold enumGene
  rw [Finset.card_biUnion]
  · have h1 : ∀ one ∈ names.powerset,
        (((names \ one).powerset).image fun two => (one, two)).card =
          2 ^ (names.card - one.card) := by
      intro one hone
      rw [Finset.card_image_of_injective _ fun a b h => (Prod.ext_iff.mp h).2,
        Finset.card_powerset, Finset.card_sdiff (Finset.mem_powerset.mp hone)]
    rw [Finset.sum_congr rfl h1,
      Finset.sum_powerset_apply_card fun k => (2:ℕ) ^ (names.card - k)]
    have h2 : ∀ m ∈ Finset.range (names.card + 1),
        names.card.choose m • (2:ℕ) ^ (names.card - m) =
          2 ^ (names.card - m) * names.card.choose m := by
      intro m _
      rw [smul_eq_mul, mul_comm]
    rw [Finset.sum_congr rfl h2]
    have h3 := add_pow (1:ℕ) 2 names.card
    simp only [one_pow, one_mul, Nat.cast_id] at h3
    norm_num at h3
    exact h3.symm
  · intro x _ y _ hxy
    rw [Finset.disjoint_left]
    intro a ha hb
    simp only [Finset.mem_image] at ha hb
    obtain ⟨t1, _, rfl⟩ := ha
    obtain ⟨t2, _, heq⟩ := hb
    exact hxy ((Prod.ext_iff.mp heq).1.symm)

/-- Each total assignment of the names to gene counts `{0,1,2}` is realized
by exactly one enumerated pair. -/
lemma enumGene_unique_assignment (names : Finset String) (f : String → ℕ)
    (hf : ∀ q ∈ names, f q < 3) :
    ∃! pr, pr ∈ enumGene names ∧ ∀ q ∈ names, getNbrGenes (some q) pr.1 pr.2 = f q := by
  refine ⟨(names.filter fun q => f q = 1, names.filter fun q => f q = 2), ⟨?_, ?_⟩, ?_⟩
  · rw [mem_enumGene]
    refine ⟨Finset.filter_subset _ _, ?_⟩
    intro q hq
    simp only [Finset.mem_filter] at hq
    simp only [Finset.mem_sdiff, Finset.mem_filter]
    exact ⟨hq.1, fun hc => by omega⟩
  · intro q hq
    have hfq := hf q hq
    simp only [getNbrGenes, memOpt, Finset.mem_filter, decide_eq_true_eq]
    split_ifs with h1 h2
    · exact h1.2.symm
    · exact h2.2.symm
    · have h1' : f q ≠ 2 := fun h => h1 ⟨hq, h⟩
      have h2' : f q ≠ 1 := fun h => h2 ⟨hq, h⟩
      omega
  · rintro ⟨one, two⟩ ⟨hmem, hagree⟩
    rw [mem_enumGene] at hmem
    obtain ⟨h1, h2⟩ := hmem
    have key : ∀ q ∈ names, (if q ∈ two then 2 else if q ∈ one then 1 else 0) = f q := by
      intro q hq
      have h := hagree q hq
      simpa [getNbrGenes, memOpt] using h
    rw [Prod.mk.injEq]
    constructor
    · ext q
      simp only [Finset.mem_filter]
      constructor
      · intro hq
        have hqn : q ∈ names := h1 hq
        have hk := key q hqn
        have hq2 : q ∉ two := fun hc => (Finset.mem_sdiff.mp (h2 hc)).2 hq
        rw [if_neg hq2, if_pos hq] at hk
        exact ⟨hqn, hk.symm⟩
      · rintro ⟨hqn, hfq⟩
        have hk := key q hqn
        by_cases hq2 : q ∈ two
        · rw [if_pos hq2] at hk
          omega
        · rw [if_neg hq2] at hk
          by_cases hq1 : q ∈ one
          · exact hq1
          · rw [if_neg hq1] at hk
            omega
    · ext q
      simp only [Finset.mem_filter]
      constructor
      · intro hq
        have hqn : q ∈ names := (Finset.mem_sdiff.mp (h2 hq)).1
        have hk := key q hqn
        rw [if_pos hq] at hk
        exact ⟨hqn, hk.symm⟩
      · rintro ⟨hqn, hfq⟩
        have hk := key q hqn
        by_cases hq2 : q ∈ two
        · exact hq2
        · rw [if_neg hq2] at hk
          by_cases hq1 : q ∈ one
          · rw [if_pos hq1] at hk
            omega
          · rw [if_neg hq1] at hk
            omega

/-- C2: the nested subset enumeration over a population of `n` names
produces exactly `3 ^ n` gene hypotheses; every enumerated pair
`(one_gene, two_genes)` consists of disjoint subsets of the population;
and every total assignment of the names to gene counts `{0,1,2}` is
realized by exactly one enumerated pair — no duplicates and no omissions.
(In the embedding the accumulation `accumGene`/`accumTrait` is a sum with
exactly one summand per enumerated hypothesis, mirroring the single
`joint_probability` and `update` call per hypothesis.) -/
theorem C2_enumeration_complete (names : Finset String) :
    (enumGene names).card = 3 ^ names.card ∧
    (∀ pr ∈ enumGene names, pr.1 ⊆ names ∧ pr.2 ⊆ names ∧ Disjoint pr.1 pr.2) ∧
    ∀ f : String → ℕ, (∀ q ∈ names, f q < 3) →
      ∃! pr, pr ∈ enumGene names ∧ ∀ q ∈ names, getNbrGenes (some q) pr.1 pr.2 = f q := by
  refine ⟨enumGene_card names, fun pr hpr => ?_, enumGene_unique_assignment names⟩
  rw [mem_enumGene] at hpr
  refine ⟨hpr.1, hpr.2.trans (Finset.sdiff_subset), ?_⟩
  exact (Finset.disjoint_of_subset_left hpr.2 Finset.sdiff_disjoint).symm

/-- Witness for C2 at the one-name population `{"a"}` and the constant
assignment to one gene copy. -/
theorem C2_witness :
    (∀ q ∈ ({"a"} : Finset String), (fun _ : String => 1) q < 3) ∧
    ∃! pr, pr ∈ enumGene {"a"} ∧
      ∀ q ∈ ({"a"} : Finset String), getNbrGenes (some q) pr.1 pr.2 = 1 :=
  ⟨by decide, (C2_enumeration_complete {"a"}).2.2 (fun _ => 1) (by decide)⟩

/-! ## Accumulation totals and normalization (C5, C6) -/

/-- The total joint-probability mass accumulated over all admissible
hypotheses — what every person's bucket totals add up to. -/
def grandTotal (people : List Person) : ℚ :=
  ∑ ht ∈ (namesOf people).powerset,
    if failsEvidence people ht then 0
    else ∑ pr ∈ enumGene (namesOf people), jointProbability people pr.1 pr.2 ht

/-- The canonical admissible trait hypothesis: exactly the people whose
observed trait is `true`. -/
def htOf (people : List Person) : Finset String :=
  ((people.filter fun p => p.trait = some true).map Person.name).toFinset

/-- Splitting a quantity over the three gene buckets recovers it. -/
lemma three_bucket_split (n : ℕ) (hn : n < 3) (q : ℚ) :
    (if n = 2 then q else 0) + (if n = 1 then q else 0) + (if n = 0 then q else 0) = q := by
  interval_cases n <;> simp

/-- Splitting a quantity over the two trait buckets recovers it. -/
lemma two_bucket_split (b : Bool) (q : ℚ) :
    (if b = true then q else 0) + (if b = false then q else 0) = q := by
  cases b <;> simp

/-- Contributions to gene buckets are nonnegative. -/
lemma traitContribGene_nonneg (people : List Person) (ht : Finset String)
    (person : String) (g : ℕ) : 0 ≤ traitContribGene people ht person g := by
  unfold traitContribGene
  split_ifs
  · exact le_refl 0
  · refine Finset.sum_nonneg fun pr _ => ?_
    split_ifs
    · exact (jointProbability_pos people pr.1 pr.2 ht).le
    · exact le_refl 0

/-- Contributions to trait buckets are nonnegative. -/
lemma traitContribTrait_nonneg (people : List Person) (ht : Finset String)
    (person : String) (t : Bool) : 0 ≤ traitContribTrait people ht person t := by
  unfold traitContribTrait
  split_ifs
  · exact le_refl 0
  · exact Finset.sum_nonneg fun pr _ => (jointProbability_pos people pr.1 pr.2 ht).le
  · simp

/-- Accumulated gene buckets are nonnegative. -/
lemma accumGene_nonneg (people : List Person) (person : String) (g : ℕ) :
    0 ≤ accumGene people person g :=
  Finset.sum_nonneg fun ht _ => traitContribGene_nonneg people ht person g

/-- Accumulated trait buckets are nonnegative. -/
lemma accumTrait_nonneg (people : List Person) (person : String) (t : Bool) :
    0 ≤ accumTrait people person t :=
  Finset.sum_nonneg fun ht _ => traitContribTrait_nonneg people ht person t

/-- Every person's three gene buckets add up to the same grand total:
each hypothesis lands in exactly one bucket. -/
lemma accumGene_total (people : List Person) (person : String) :
    accumGene people person 2 + accumGene people person 1 + accumGene people person 0 =
      grandTotal people := by
  unfold accumGene grandTotal
  rw [← Finset.sum_add_distrib, ← Finset.sum_add_distrib]
  refine Finset.sum_congr rfl fun ht _ => ?_
  unfold traitContribGene
  split_ifs
  · ring
  · rw [← Finset.sum_add_distrib, ← Finset.sum_add_distrib]
    refine Finset.sum_congr rfl fun pr _ => ?_
    exact three_bucket_split _ (getNbrGenes_lt_three (some person) pr.1 pr.2) _

/-- Every person's two trait buckets add up to the same grand total. -/
lemma accumTrait_total (people : List Person) (person : String) :
    accumTrait people person true + accumTrait people person false = grandTotal people := by
  unfold accumTrait grandTotal
  rw [← Finset.sum_add_distrib]
  refine Finset.sum_congr rfl fun ht _ => ?_
  unfold traitContribTrait
  by_cases hf : failsEvidence people ht = true
  · rw [if_pos hf, if_pos hf, if_pos hf]
    ring
  · rw [if_neg hf, if_neg hf, if_neg hf, ← Finset.sum_add_distrib]
    refine Finset.sum_congr rfl fun pr _ => ?_
    exact two_bucket_split (getTrait person ht) _

/-- The canonical trait hypothesis only mentions population names. -/
lemma htOf_subset (people : List Person) : htOf people ⊆ namesOf people := by
  intro x hx
  simp only [htOf, List.mem_toFinset, List.mem_map, List.mem_filter] at hx
  obtain ⟨p, ⟨hp, _⟩, rfl⟩ := hx
  simp only [namesOf, List.mem_toFinset, List.mem_map]
  exact ⟨p, hp, rfl⟩

/-- Under distinct names, the canonical trait hypothesis passes the
evidence test: it is always an admissible trait hypothesis. -/
lemma htOf_admissible (people : List Person) (hN : (people.map Person.name).Nodup) :
    failsEvidence people (htOf people) = false := by
  rw [failsEvidence_eq_false_iff]
  intro p hp b hb
  constructor
  · intro hmem
    simp only [htOf, List.mem_toFinset, List.mem_map, List.mem_filter] at hmem
    obtain ⟨q, ⟨hq, hqt⟩, hqname⟩ := hmem
    have hqp : q = p := List.inj_on_of_nodup_map hN hq hp hqname
    rw [hqp, hb] at hqt
    simpa using hqt.symm
  · intro hbt
    rw [hbt] at hb
    simp only [htOf, List.mem_toFinset, List.mem_map, List.mem_filter]
    exact ⟨p, ⟨hp, decide_eq_true hb⟩, rfl⟩

/-- Under distinct names the grand total is strictly positive: at least
one admissible trait hypothesis exists and every joint probability is
strictly positive. -/
lemma grandTotal_pos (people : List Person) (hN : (people.map Person.name).Nodup) :
    0 < grandTotal people := by
  unfold grandTotal
  refine Finset.sum_pos' (fun ht _ => ?_) ⟨htOf people, ?_, ?_⟩
  · split_ifs
    · exact le_refl 0
    · exact Finset.sum_nonneg fun pr _ => (jointProbability_pos people pr.1 pr.2 ht).le
  · rw [Finset.mem_powerset]
    exact htOf_subset people
  · rw [if_neg (by simp [htOf_admissible people hN])]
    exact Finset.sum_pos (fun pr _ => jointProbability_pos people pr.1 pr.2 (htOf people))
      ⟨(∅, ∅), empty_mem_enumGene _⟩

/-- C5: for every population (with the distinct names a `dict` guarantees)
and every evidence assignment, `normalize` succeeds on every individual's
accumulated tables and afterwards the gene-count distribution over
`{0,1,2}` and the trait distribution over `{true,false}` each sum to
exactly 1, with every entry a probability in `[0,1]`. -/
theorem C5_normalize_yields_distributions (people : List Person)
    (hN : (people.map Person.name).Nodup) (p : Person) (_hp : p ∈ people) :
    ∃ nb, normalizeBelief (accumBelief people p.name) = Except.ok nb ∧
      nb.gene 0 + nb.gene 1 + nb.gene 2 = 1 ∧
      (∀ g, g < 3 → 0 ≤ nb.gene g ∧ nb.gene g ≤ 1) ∧
      nb.trait true + nb.trait false = 1 ∧
      ∀ t, 0 ≤ nb.trait t ∧ nb.trait t ≤ 1 := by
  have hpos := grandTotal_pos people hN
  have hg := accumGene_total people p.name
  have ht2 := accumTrait_total people p.name
  have hS : 0 < accumGene people p.name 2 + accumGene people p.name 1 +
      accumGene people p.name 0 := by
    rw [hg]
    exact hpos
  have hT : 0 < accumTrait people p.name true + accumTrait people p.name false := by
    rw [ht2]
    exact hpos
  refine ⟨⟨fun g => accumGene people p.name g /
      (accumGene people p.name 2 + accumGene people p.name 1 + accumGene people p.name 0),
    fun t => accumTrait people p.name t /
      (accumTrait people p.name true + accumTrait people p.name false)⟩, ?_, ?_, ?_, ?_, ?_⟩
  · unfold normalizeBelief accumBelief
    rw [if_neg hS.ne', if_neg hT.ne']
  · rw [div_add_div_same, div_add_div_same, div_eq_one_iff_eq hS.ne']
    ring
  · intro g hg3
    refine ⟨div_nonneg (accumGene_nonneg people p.name g) hS.le, ?_⟩
    rw [div_le_one hS]
    have n0 := accumGene_nonneg people p.name 0
    have n1 := accumGene_nonneg people p.name 1
    have n2 := accumGene_nonneg people p.name 2
    interval_cases g <;> linarith
  · rw [div_add_div_same, div_eq_one_iff_eq hT.ne']
  · intro t
    refine ⟨div_nonneg (accumTrait_nonneg people p.name t) hT.le, ?_⟩
    rw [div_le_one hT]
    have n0 := accumTrait_nonneg people p.name true
    have n1 := accumTrait_nonneg people p.name false
    cases t <;> linarith

/-- Witness for C5 on a one-person population with no evidence. -/
theorem C5_witness :
    ([(⟨"a", none, none, none⟩ : Person)].map Person.name).Nodup ∧
    ∃ nb, normalizeBelief (accumBelief [(⟨"a", none, none, none⟩ : Person)] "a") =
        Except.ok nb ∧
      nb.gene 0 + nb.gene 1 + nb.gene 2 = 1 ∧
      (∀ g, g < 3 → 0 ≤ nb.gene g ∧ nb.gene g ≤ 1) ∧
      nb.trait true + nb.trait false = 1 ∧
      ∀ t, 0 ≤ nb.trait t ∧ nb.trait t ≤ 1 :=
  ⟨by decide,
   C5_normalize_yields_distributions [(⟨"a", none, none, none⟩ : Person)] (by decide)
     ⟨"a", none, none, none⟩ (by decide)⟩

/-- C6: an individual whose trait is observed with certainty receives the
observed value in every admissible hypothesis, so the opposite trait
bucket accumulates exactly 0 and the normalized trait distribution is a
point mass on the observed value. -/
theorem C6_certain_trait_point_mass (people : List Person)
    (hN : (people.map Person.name).Nodup) (p : Person) (hp : p ∈ people)
    (b : Bool) (hb : p.trait = some b) :
    accumTrait people p.name (!b) = 0 ∧
    ∃ nb, normalizeBelief (accumBelief people p.name) = Except.ok nb ∧
      nb.trait b = 1 ∧ nb.trait (!b) = 0 := by
  have hpos := grandTotal_pos people hN
  have hg := accumGene_total people p.name
  have ht2 := accumTrait_total people p.name
  have hzero : accumTrait people p.name (!b) = 0 := by
    unfold accumTrait
    refine Finset.sum_eq_zero fun ht _ => ?_
    unfold traitContribTrait
    by_cases hf : failsEvidence people ht = true
    · rw [if_pos hf]
    · rw [if_neg hf]
      refine Finset.sum_eq_zero fun pr _ => ?_
      have hadm := (failsEvidence_eq_false_iff people ht).mp (by simpa using hf)
      have hmem : (p.name ∈ ht) ↔ b = true := hadm p hp b hb
      have hgt : getTrait p.name ht = b := by
        unfold getTrait
        cases b
        · simp [hmem]
        · simp [hmem]
      rw [hgt]
      cases b <;> simp
  have haccb : accumTrait people p.name b = grandTotal people := by
    cases b
    · have h0 : accumTrait people p.name true = 0 := by simpa using hzero
      linarith
    · have h0 : accumTrait people p.name false = 0 := by simpa using hzero
      linarith
  have hS : 0 < accumGene people p.name 2 + accumGene people p.name 1 +
      accumGene people p.name 0 := by
    rw [hg]
    exact hpos
  have hT : 0 < accumTrait people p.name true + accumTrait people p.name false := by
    rw [ht2]
    exact hpos
  refine ⟨hzero, ⟨fun g => accumGene people p.name g /
      (accumGene people p.name 2 + accumGene people p.name 1 + accumGene people p.name 0),
    fun t => accumTrait people p.name t /
      (accumTrait people p.name true + accumTrait people p.name false)⟩, ?_, ?_, ?_⟩
  · unfold normalizeBelief accumBelief
    rw [if_neg hS.ne', if_neg hT.ne']
  · show accumTrait people p.name b /
      (accumTrait people p.name true + accumTrait people p.name false) = 1
    rw [haccb, ht2, div_self hpos.ne']
  · show accumTrait people p.name (!b) /
      (accumTrait people p.name true + accumTrait people p.name false) = 0
    rw [hzero, zero_div]

/-- Witness for C6 on a one-person population with observed trait `true`. -/
theorem C6_witness :
    ([(⟨"a", none, none, some true⟩ : Person)].map Person.name).Nodup ∧
    (⟨"a", none, none, some true⟩ : Person).trait = some true ∧
    accumTrait [(⟨"a", none, none, some true⟩ : Person)] "a" false = 0 ∧
    ∃ nb, normalizeBelief (accumBelief [(⟨"a", none, none, some true⟩ : Person)] "a") =
        Except.ok nb ∧
      nb.trait true = 1 ∧ nb.trait false = 0 :=
  ⟨by decide, rfl,
   (C6_certain_trait_point_mass [(⟨"a", none, none, some true⟩ : Person)] (by decide)
     ⟨"a", none, none, some true⟩ (by decide) true rfl).1,
   (C6_certain_trait_point_mass [(⟨"a", none, none, some true⟩ : Person)] (by decide)
     ⟨"a", none, none, some true⟩ (by decide) true rfl).2⟩

end Heredity
